import Mathlib

/-!
Verification of the chunked HTML→Markdown conversion pipeline
(`html-to-md-using-bedrock.py`).

The external collaborators (AWS Bedrock, the `tiktoken` codec and the
BeautifulSoup parsing primitives) are modelled as parameters: the Bedrock
call is an oracle from the request data to `Option String` (`none` = the
call raised), the codec is a pair of functions, and a parsed document is a
record holding exactly the values the source reads off the soup
(`soup.title.string`, `soup.find_all("meta")`, `soup.body`).  Everything
the repository itself computes — window planning, slicing, the sequential
conversion loop, sentinel removal, header prepending, metadata
extraction — is embedded faithfully from the source.
-/

namespace HtmlToMd

/-! ### Python primitives -/

/-- Python list slice `l[a:b]` (step 1): negative indices count from the
end, out-of-range indices are clamped. -/
def pySlice {α : Type} (l : List α) (a b : ℤ) : List α :=
  let n : ℤ := (l.length : ℤ)
  let a2 : ℤ := if a < 0 then max (n + a) 0 else min a n
  let b2 : ℤ := if b < 0 then max (n + b) 0 else min b n
  (l.take b2.toNat).drop a2.toNat

/-- Python's default `str.strip()` whitespace (ASCII part; the further
Unicode whitespace stripped by Python is outside the documents modelled
here). -/
def isPyWs (c : Char) : Bool :=
  c == ' ' || c == '\t' || c == '\n' || c == '\r' || c == '\x0b' || c == '\x0c'

/-- Python `s.strip()`: drop leading and trailing whitespace. -/
def pyStrip (s : String) : String :=
  String.mk (((s.data.dropWhile isPyWs).reverse.dropWhile isPyWs).reverse)

/-- Worker for `removeOcc`, structurally recursive on a fuel that bounds
the scan length (the scanned suffix shrinks by at least one character per
step, so `s.length` fuel suffices). -/
def removeOccAux (pat : List Char) : ℕ → List Char → List Char
  | 0, s => s
  | _ + 1, [] => []
  | fuel + 1, c :: rest =>
    if !pat.isEmpty && pat.isPrefixOf (c :: rest) then
      removeOccAux pat fuel (List.drop pat.length (c :: rest))
    else
      c :: removeOccAux pat fuel rest

/-- Python `s.replace(pat, "")`: one left-to-right pass deleting
non-overlapping occurrences of `pat`.  An empty pattern deletes nothing
(the replacement is empty). -/
def removeOcc (pat : List Char) (s : List Char) : List Char :=
  removeOccAux pat s.length s

/-- Worker for `countOcc`, same fuel discipline as `removeOccAux`. -/
def countOccAux (pat : List Char) : ℕ → List Char → ℕ
  | 0, _ => 0
  | _ + 1, [] => 0
  | fuel + 1, c :: rest =>
    if !pat.isEmpty && pat.isPrefixOf (c :: rest) then
      1 + countOccAux pat fuel (List.drop pat.length (c :: rest))
    else
      countOccAux pat fuel rest

/-- Non-overlapping left-to-right occurrence count. -/
def countOcc (pat : List Char) (s : List Char) : ℕ :=
  countOccAux pat s.length s

/-- Python `pat in s` substring containment. -/
def listContains (pat : List Char) (s : List Char) : Bool :=
  match s with
  | [] => pat.isPrefixOf [].tail
  | c :: rest => pat.isPrefixOf (c :: rest) || listContains pat rest

/-- `"pat" in hay` on strings. -/
def strContains (hay pat : String) : Bool :=
  listContains pat.data hay.data

/-- Python `hay.startswith(pat)`. -/
def strStarts (hay pat : String) : Bool :=
  pat.data.isPrefixOf hay.data

/-- Occurrence count on strings. -/
def strCount (hay pat : String) : ℕ :=
  countOcc pat.data hay.data

/-- `hay.replace(pat, "")` on strings. -/
def strRemove (hay pat : String) : String :=
  String.mk (removeOcc pat.data hay.data)

/-! ### Data model of the parsed document and the collaborators -/

/-- One element of `soup.find_all("meta")`: its `name` and `content`
attributes, each possibly absent. -/
structure MetaTag where
  name : Option String
  content : Option String
deriving Repr, DecidableEq

/-- The `soup.body` element: `get_text(strip=True)` and `str(body)`. -/
structure BodyElem where
  textStripped : String
  html : String
deriving Repr, DecidableEq

/-- A parsed document: the raw input plus the values the source reads off
`BeautifulSoup(html_content, "html.parser")`. `titleString` is
`soup.title.string` when a title tag with a single string child exists.
`body` is `none` when the parse produced no `<body>` element. -/
structure HtmlDoc where
  raw : String
  titleString : Option String
  metas : List MetaTag
  body : Option BodyElem
deriving Repr, DecidableEq

/-- The `tiktoken` codec, an external dependency. -/
structure Codec where
  encode : String → List ℕ
  decode : List ℕ → String

/-- The information content of the Bedrock request prompt: either the
continuation prompt (previous Markdown plus the chunk) or the first-chunk
prompt (the metadata block — empty when `include_metadata` is false — plus
the chunk).  The fixed instruction text around these fields is part of the
external prompt contract. -/
inductive PromptData where
  | first (metadataBlock : String) (chunk : String)
  | contin (previousMarkdown : String) (chunk : String)
deriving Repr, DecidableEq

/-- The Python error raised by the single-chunk path (line 210):
`convert_chunk_to_markdown(html_content, with_metadata=True)` passes a
keyword argument that the callee's signature (line 58) does not declare,
so CPython raises `TypeError` before the function body runs. -/
inductive PyErr where
  | typeError
deriving Repr, DecidableEq

/-! ### Embedding of the source functions -/

/-- Line 19: `MAX_TOKEN_LIMIT = 4096`. -/
def MAX_TOKEN_LIMIT : ℕ := 4096

/-- Python dict assignment `d[k] = v` on an insertion-ordered dict:
overwrite in place when the key is present, append otherwise. -/
def dictInsert (m : List (String × String)) (k v : String) :
    List (String × String) :=
  if m.any (fun p => p.1 == k) then
    m.map (fun p => if p.1 == k then (k, v) else p)
  else
    m ++ [(k, v)]

/-- Lines 38–39: `if soup.title and soup.title.string:
metadata["title"] = soup.title.string.strip()`.  The truthiness test on
the string value is the `t != ""` guard. -/
def titleInit (d : HtmlDoc) : List (String × String) :=
  match d.titleString with
  | some t => if t != "" then dictInsert [] "title" (pyStrip t) else []
  | none => []

/-- Lines 41–42: one iteration of the `for meta in soup.find_all("meta")`
loop — `if meta.get("name"): metadata[meta["name"].strip()] =
meta.get("content", "").strip()`. -/
def metaStep (m : List (String × String)) (mt : MetaTag) :
    List (String × String) :=
  match mt.name with
  | some n => if n != "" then dictInsert m (pyStrip n) (pyStrip (mt.content.getD "")) else m
  | none => m

/-- Lines 35–43: `extract_metadata`. -/
def extract_metadata (d : HtmlDoc) : List (String × String) :=
  d.metas.foldl metaStep (titleInit d)

/-- Lines 46–50: `strip_head` — `str(soup.body)` if a body exists,
otherwise the input unchanged. -/
def strip_head (d : HtmlDoc) : String :=
  match d.body with
  | some b => b.html
  | none => d.raw

/-- Line 144's condition: `not body_content or not
body_content.get_text(strip=True)`. -/
def noContent (d : HtmlDoc) : Bool :=
  match d.body with
  | some b => b.textStripped == ""
  | none => true

/-- Lines 70–111: which prompt `convert_chunk_to_markdown` builds.
`if previous_markdown:` selects the continuation prompt; otherwise the
first prompt embeds `{metadata_block if include_metadata else ""}`. -/
def buildReq (html_chunk previous_markdown metadata_block : String)
    (include_metadata : Bool) : PromptData :=
  if previous_markdown != "" then
    PromptData.contin previous_markdown html_chunk
  else
    PromptData.first (if include_metadata then metadata_block else "") html_chunk

/-- Lines 58–134: `convert_chunk_to_markdown`.  On success the model's
`outputText` is returned `.strip()`ped (line 130); any exception from the
Bedrock call is caught and the function returns `""` (lines 131–133). -/
def convert_chunk_to_markdown (oracle : PromptData → Option String)
    (html_chunk previous_markdown metadata_block : String)
    (include_metadata : Bool) : String :=
  match oracle (buildReq html_chunk previous_markdown metadata_block include_metadata) with
  | some outputText => pyStrip outputText
  | none => ""

/-- Lines 176–181: the token slice of the window starting at `start` —
`end = min(start + max_chunk_size, total_tokens)`; `tokens[start -
overlap_tokens:end]` when `start > 0`, else `tokens[start:end]`.  The
subtraction is Python int subtraction, hence the `ℤ`-valued `pySlice`. -/
def chunk_tokens_at (tokens : List ℕ) (max_chunk_size overlap_tokens start : ℕ) :
    List ℕ :=
  if 0 < start then
    pySlice tokens ((start : ℤ) - (overlap_tokens : ℤ))
      ((min (start + max_chunk_size) tokens.length : ℕ) : ℤ)
  else
    pySlice tokens (start : ℤ)
      ((min (start + max_chunk_size) tokens.length : ℕ) : ℤ)

/-- Lines 175–197: the `while start < total_tokens` loop, with an explicit
fuel argument for termination (the source advances `start` by
`max_chunk_size` each iteration).  Returns the recorded markdown chunks
together with the number of Bedrock invocations made.  The body: convert
the decoded slice; on empty (stripped) output break without recording
(lines 190–191); record the output and thread it as context (lines
192–193); on output containing `"END"` break (lines 194–195); otherwise
advance. -/
def chunkLoopAux (oracle : PromptData → Option String) (codec : Codec)
    (tokens : List ℕ) (max_chunk_size overlap_tokens : ℕ)
    (metadata_block : String) :
    ℕ → ℕ → String → ℕ → List String × ℕ
  | 0, _, _, _ => ([], 0)
  | fuel + 1, start, previous_markdown, chunk_index =>
    if start < tokens.length then
      let chunk_text := codec.decode
        (chunk_tokens_at tokens max_chunk_size overlap_tokens start)
      let markdown_chunk := convert_chunk_to_markdown oracle chunk_text
        previous_markdown metadata_block (chunk_index == 0)
      if pyStrip markdown_chunk == "" then ([], 1)
      else if strContains markdown_chunk "END" then ([markdown_chunk], 1)
      else
        let r := chunkLoopAux oracle codec tokens max_chunk_size overlap_tokens
          metadata_block fuel (start + max_chunk_size) markdown_chunk
          (chunk_index + 1)
        (markdown_chunk :: r.1, r.2 + 1)
    else ([], 0)

/-- The loop started at `start = 0`, `previous_markdown = ""`,
`chunk_index = 0`; `tokens.length + 1` fuel suffices for any positive
`max_chunk_size`. -/
def chunkLoop (oracle : PromptData → Option String) (codec : Codec)
    (tokens : List ℕ) (max_chunk_size overlap_tokens : ℕ)
    (metadata_block : String) : List String × ℕ :=
  chunkLoopAux oracle codec tokens max_chunk_size overlap_tokens metadata_block
    (tokens.length + 1) 0 "" 0

/-- Lines 161–162: the YAML front-matter block built from the metadata. -/
def metaBlockOf (metadata : List (String × String)) : String :=
  "---\n" ++
    String.intercalate "\n" (metadata.map (fun kv => kv.1 ++ ": \"" ++ kv.2 ++ "\"")) ++
    "\n---\n\n"

/-- Lines 159–162: `metadata_block` is the YAML block when `with_metadata`
holds and the metadata is non-empty, else the empty string. -/
def metadata_block_of (d : HtmlDoc) (with_metadata : Bool) : String :=
  if with_metadata && !(extract_metadata d).isEmpty then
    metaBlockOf (extract_metadata d)
  else ""

/-- Lines 199–201: join the chunks with newlines, delete the `"END"`
sentinel occurrences in one pass, and strip. -/
def aggregate_markdown (markdown_chunks : List String) : String :=
  pyStrip (strRemove (String.intercalate "\n" markdown_chunks) "END")

/-- Lines 203–205: prepend the YAML block when metadata is requested and
present and the aggregate does not already start with `'---'`. -/
def ensure_front_matter (aggregated_markdown metadata_block : String)
    (with_metadata : Bool) (metadata : List (String × String)) : String :=
  if with_metadata && !metadata.isEmpty && !(strStarts aggregated_markdown "---") then
    metadata_block ++ aggregated_markdown
  else aggregated_markdown

/-- Lines 137–211: `process_html_in_chunks`.  The empty-content check
(lines 141–146) returns `("", {})`; the chunking branch (lines 156–207)
extracts metadata, strips the head, runs the sliding-window loop and
aggregates; the single-chunk branch (lines 208–211) raises `TypeError`
because line 210 passes the keyword `with_metadata` to
`convert_chunk_to_markdown`, whose signature has no such parameter. -/
def process_html_in_chunks (oracle : PromptData → Option String)
    (codec : Codec) (d : HtmlDoc)
    (max_chunk_size overlap_tokens : ℕ) (with_metadata : Bool) :
    Except PyErr (String × List (String × String)) :=
  if noContent d then .ok ("", [])
  else
    let total_tokens := (codec.encode d.raw).length
    if MAX_TOKEN_LIMIT < total_tokens then
      let metadata := extract_metadata d
      let metadata_block := metadata_block_of d with_metadata
      let body_html := strip_head d
      let tokens := codec.encode body_html
      let r := chunkLoop oracle codec tokens max_chunk_size overlap_tokens metadata_block
      let aggregated_markdown := aggregate_markdown r.1
      .ok (ensure_front_matter aggregated_markdown metadata_block with_metadata metadata,
           metadata)
    else
      .error .typeError

/-- Number of Bedrock invocations performed by `process_html_in_chunks`,
following the same branch structure: the empty-content return and the
single-chunk `TypeError` (raised before the callee's body runs) make
none; the chunking branch makes the loop's count. -/
def process_calls (oracle : PromptData → Option String) (codec : Codec)
    (d : HtmlDoc) (max_chunk_size overlap_tokens : ℕ)
    (with_metadata : Bool) : ℕ :=
  if noContent d then 0
  else
    if MAX_TOKEN_LIMIT < (codec.encode d.raw).length then
      (chunkLoop oracle codec (codec.encode (strip_head d)) max_chunk_size
        overlap_tokens (metadata_block_of d with_metadata)).2
    else 0

/-! ### The window plan (lines 175–182, conversion calls abstracted away) -/

/-- A planned window: its non-overlap start, the (possibly
overlap-extended) Python slice lower bound, and its exclusive end. -/
structure Window where
  start : ℕ
  lo : ℤ
  hi : ℕ
deriving Repr, DecidableEq

/-- The window the loop body computes at position `start` (lines
176–181). -/
def mkWindow (total max_chunk_size overlap_tokens start : ℕ) : Window :=
  ⟨start,
   if 0 < start then (start : ℤ) - (overlap_tokens : ℤ) else (start : ℤ),
   min (start + max_chunk_size) total⟩

/-- The sequence of windows the `while` loop traverses: emit the window at
`start` and advance `start` by `max_chunk_size` while `start < total`. -/
def planAux (total max_chunk_size overlap_tokens : ℕ) :
    ℕ → ℕ → List Window
  | 0, _ => []
  | fuel + 1, start =>
    if start < total then
      mkWindow total max_chunk_size overlap_tokens start ::
        planAux total max_chunk_size overlap_tokens fuel (start + max_chunk_size)
    else []

/-- The full window plan for a body of `total` tokens. -/
def planWindows (total max_chunk_size overlap_tokens : ℕ) : List Window :=
  planAux total max_chunk_size overlap_tokens (total + 1) 0

/-- The token slice a window sends (its overlap-extended range). -/
def windowSlice (tokens : List ℕ) (w : Window) : List ℕ :=
  pySlice tokens w.lo (w.hi : ℤ)

/-- The non-overlap portion `[start, hi)` of a window. -/
def nonOverlapRange (w : Window) : ℕ × ℕ :=
  (w.start, w.hi)

/-- `chainCover a b rs` holds when the ranges `rs` tile the interval
`[a, b)` exactly: consecutive, non-empty, starting at `a` and ending at
`b` — no gaps and no double-counting. -/
def chainCover : ℕ → ℕ → List (ℕ × ℕ) → Bool
  | a, b, [] => a == b
  | a, b, (s, e) :: rest => (s == a) && decide (a < e) && chainCover e b rest

/-- Adjacency of two consecutively planned windows: the second starts one
stride after the first, both in range; window starts are `0` or at least
one full stride. -/
def WinAdj (total max_chunk_size overlap_tokens : ℕ) (w w' : Window) : Prop :=
  ∃ s, (s = 0 ∨ max_chunk_size ≤ s) ∧ s + max_chunk_size < total
    ∧ w = mkWindow total max_chunk_size overlap_tokens s
    ∧ w' = mkWindow total max_chunk_size overlap_tokens (s + max_chunk_size)

/-! ### Concrete collaborators used in the counterexample runs -/

/-- A codec whose encoding always has 4097 tokens, putting any document
over the 4096-token limit. -/
def bigCodec : Codec :=
  ⟨fun _ => List.replicate 4097 0, fun _ => "x"⟩

/-- A codec whose encoding always has a single token, keeping any document
under the limit. -/
def smallCodec : Codec :=
  ⟨fun _ => [0], fun _ => ""⟩

/-- A document with a non-empty body and no metadata. -/
def plainDoc : HtmlDoc :=
  ⟨"<html><body><p>hi</p></body></html>", none, [],
   some ⟨"hi", "<body><p>hi</p></body>"⟩⟩

/-- A document with a title (so extracted metadata is non-empty) and a
non-empty body. -/
def titledDoc : HtmlDoc :=
  ⟨"<html><head><title>T</title></head><body>text</body></html>",
   some "T", [], some ⟨"text", "<body>text</body>"⟩⟩

/-- A document carrying one `meta` annotation that has a `name` attribute
but no `content` attribute. -/
def nameOnlyDoc : HtmlDoc :=
  ⟨"<html><head><meta name=\"author\"></head><body>x</body></html>",
   none, [⟨some "author", none⟩], some ⟨"x", "<body>x</body>"⟩⟩

/-- A document whose body element exists but contains only whitespace, so
`get_text(strip=True)` is empty. -/
def wsDoc : HtmlDoc :=
  ⟨"<html><head><title>T</title></head><body> \n </body></html>",
   some "T", [], some ⟨"", "<body> \n </body>"⟩⟩

/-- A plain-text fragment: no `<body>` element is parsed although the raw
input is non-empty extractable text. -/
def fragmentDoc : HtmlDoc :=
  ⟨"just some plain text with no markup", none, [], none⟩

/-- A Bedrock oracle whose call always fails. -/
def oracleFail : PromptData → Option String := fun _ => none

/-- A Bedrock oracle that always answers `"ENENDD"`: a reply in which
deleting the one `"END"` occurrence concatenates `"EN"` and `"D"` into a
fresh `"END"`. -/
def oracleSentinel : PromptData → Option String := fun _ => some "ENENDD"

/-- A Bedrock oracle whose reply carries its own `'---'`-delimited block
and ends with the sentinel. -/
def oracleYamlBody : PromptData → Option String :=
  fun _ => some "body\n---\na: b\n---END"

/-- A Bedrock oracle that succeeds on the first-chunk prompt and fails on
every continuation prompt. -/
def oracleFirstOnly : PromptData → Option String := fun r =>
  match r with
  | .first _ _ => some "first out"
  | .contin _ _ => none

/-! ### Run descriptions and claim-side (spec-worded) definitions -/

/-- The request the loop sends from position `start` with context `prev`
at chunk index `idx`. -/
def reqAt (codec : Codec) (tokens : List ℕ) (max_chunk_size overlap_tokens : ℕ)
    (metadata_block : String) (start : ℕ) (prev : String) (idx : ℕ) : PromptData :=
  buildReq (codec.decode (chunk_tokens_at tokens max_chunk_size overlap_tokens start))
    prev metadata_block (idx == 0)

/-- `runsThen oracle codec tokens max ov block start prev idx outs` holds
when, starting the loop at `(start, prev, idx)`, the oracle answers each
of the next `outs.length` requests with the corresponding element of
`outs` (each recorded and threaded after `.strip()`, none empty, none
containing the sentinel), and then the call for the following window —
still in range — fails. -/
def runsThen (oracle : PromptData → Option String) (codec : Codec)
    (tokens : List ℕ) (max_chunk_size overlap_tokens : ℕ)
    (metadata_block : String) :
    ℕ → String → ℕ → List String → Bool
  | start, prev, idx, [] =>
    decide (start < tokens.length) &&
    (oracle (reqAt codec tokens max_chunk_size overlap_tokens metadata_block
        start prev idx) == none)
  | start, prev, idx, o :: rest =>
    decide (start < tokens.length) &&
    (oracle (reqAt codec tokens max_chunk_size overlap_tokens metadata_block
        start prev idx) == some o) &&
    !(pyStrip (pyStrip o) == "") && !(strContains (pyStrip o) "END") &&
    runsThen oracle codec tokens max_chunk_size overlap_tokens metadata_block
      (start + max_chunk_size) (pyStrip o) (idx + 1) rest

/-- One `meta` iteration read per the claim's wording: the annotation is
mapped only when it has BOTH a `name` and a `content` attribute. -/
def metaStepClaim (m : List (String × String)) (mt : MetaTag) :
    List (String × String) :=
  match mt.name, mt.content with
  | some n, some c => dictInsert m (pyStrip n) (pyStrip c)
  | _, _ => m

/-- The metadata extractor as described by claim C9's words ("maps exactly
those header-level annotations that have both a name and a content
attribute"), rather than by the source. -/
def extractMetadataClaim (d : HtmlDoc) : List (String × String) :=
  d.metas.foldl metaStepClaim (titleInit d)

/-- The key/value candidate a single `meta` annotation contributes: its
stripped name mapped to its stripped content (missing content defaults to
the empty string), or nothing when the `name` attribute is absent or
empty. -/
def metaPair (mt : MetaTag) : Option (String × String) :=
  match mt.name with
  | some n =>
    if n != "" then some (pyStrip n, pyStrip (mt.content.getD "")) else none
  | none => none

/-- The title pair list: `[("title", stripped title)]` when the title
string is present and truthy, else empty. -/
def titlePairs (d : HtmlDoc) : List (String × String) :=
  match d.titleString with
  | some t => if t != "" then [("title", pyStrip t)] else []
  | none => []

/-- The ordered key/value candidates the extractor processes: the title
pair followed by one pair per `meta` with a truthy `name` attribute. -/
def metaPairs (d : HtmlDoc) : List (String × String) :=
  titlePairs d ++ d.metas.filterMap metaPair

/-- First occurrence of each key, in order of first appearance. -/
def firstKeys (l : List String) : List String :=
  match l with
  | [] => []
  | k :: rest => k :: firstKeys (rest.filter (fun x => !(x == k)))
termination_by l.length
decreasing_by
  simp only [List.length_cons]
  have := List.length_filter_le (fun x => !(x == k)) rest
  omega

/-- The value of the last pair with the given key (the later occurrence
overwrites the earlier one). -/
def lastVal (ps : List (String × String)) (k : String) : String :=
  match (ps.filter (fun p => p.1 == k)).getLast? with
  | some p => p.2
  | none => ""

/-- Insertion-ordered-dict semantics in spec terms: keys in order of first
appearance, each bound to its last written value. -/
def canonDict (ps : List (String × String)) : List (String × String) :=
  (firstKeys (ps.map Prod.fst)).map (fun k => (k, lastVal ps k))

/-- The amended description of `extract_metadata`: insertion-ordered dict
built from `metaPairs`. -/
def canonicalMeta (d : HtmlDoc) : List (String × String) :=
  canonDict (metaPairs d)

/-- Folding `dictInsert` over a pair list, starting from dict `m`. -/
def insertAll (m : List (String × String)) (ps : List (String × String)) :
    List (String × String) :=
  ps.foldl (fun acc kv => dictInsert acc kv.1 kv.2) m

/-! ### Basic slice lemmas -/

theorem pySlice_coe {α : Type} (l : List α) (a b : ℕ) :
    pySlice l (a : ℤ) (b : ℤ) = (l.take b).drop a := by
  unfold pySlice
  have ha : ¬ ((a : ℤ) < 0) := by omega
  have hb : ¬ ((b : ℤ) < 0) := by omega
  simp only [if_neg ha, if_neg hb]
  have h1 : (min (a : ℤ) (l.length : ℤ)).toNat = min a l.length := by
    omega
  have h2 : (min (b : ℤ) (l.length : ℤ)).toNat = min b l.length := by
    omega
  rw [h1, h2]
  rcases le_or_lt b l.length with hbl | hbl
  · rcases le_or_lt a l.length with hal | hal
    · rw [min_eq_left hbl, min_eq_left hal]
    · rw [min_eq_left hbl, min_eq_right (le_of_lt hal)]
      have h3 : (l.take b).length ≤ l.length := List.length_take_le' _ _
      rw [List.drop_eq_nil_iff.mpr (by omega), List.drop_eq_nil_iff.mpr (by omega)]
  · rw [min_eq_right (le_of_lt hbl), List.take_length,
      List.take_of_length_le (le_of_lt hbl)]
    rcases le_or_lt a l.length with hal | hal
    · rw [min_eq_left hal]
    · rw [min_eq_right (le_of_lt hal)]
      rw [List.drop_eq_nil_iff.mpr le_rfl, List.drop_eq_nil_iff.mpr (le_of_lt hal)]

/-! ### Reduction lemmas for the chunking pipeline -/

theorem bigCodec_len (s : String) : (bigCodec.encode s).length = 4097 := by
  simp only [bigCodec, List.length_replicate]

theorem process_chunking (oracle : PromptData → Option String) (codec : Codec)
    (d : HtmlDoc) (max_chunk_size overlap_tokens : ℕ) (with_metadata : Bool)
    (hne : noContent d = false)
    (hbig : MAX_TOKEN_LIMIT < (codec.encode d.raw).length) :
    process_html_in_chunks oracle codec d max_chunk_size overlap_tokens with_metadata =
      .ok (ensure_front_matter
            (aggregate_markdown
              (chunkLoop oracle codec (codec.encode (strip_head d))
                max_chunk_size overlap_tokens (metadata_block_of d with_metadata)).1)
            (metadata_block_of d with_metadata) with_metadata (extract_metadata d),
          extract_metadata d) := by
  rw [process_html_in_chunks]
  rw [hne]
  simp only [Bool.false_eq_true, if_false, if_pos hbig]

theorem process_calls_chunking (oracle : PromptData → Option String) (codec : Codec)
    (d : HtmlDoc) (max_chunk_size overlap_tokens : ℕ) (with_metadata : Bool)
    (hne : noContent d = false)
    (hbig : MAX_TOKEN_LIMIT < (codec.encode d.raw).length) :
    process_calls oracle codec d max_chunk_size overlap_tokens with_metadata =
      (chunkLoop oracle codec (codec.encode (strip_head d))
        max_chunk_size overlap_tokens (metadata_block_of d with_metadata)).2 := by
  rw [process_calls, hne]
  simp only [Bool.false_eq_true, if_false, if_pos hbig]

theorem chunkLoop_first_none (oracle : PromptData → Option String) (codec : Codec)
    (tokens : List ℕ) (max_chunk_size overlap_tokens : ℕ) (metadata_block : String)
    (hlen : 0 < tokens.length)
    (hcall : oracle (reqAt codec tokens max_chunk_size overlap_tokens
        metadata_block 0 "" 0) = none) :
    chunkLoop oracle codec tokens max_chunk_size overlap_tokens metadata_block
      = ([], 1) := by
  rw [chunkLoop, chunkLoopAux, if_pos hlen]
  simp only [convert_chunk_to_markdown, reqAt] at hcall ⊢
  rw [hcall]
  have h0 : (pyStrip "" == "") = true := by decide
  simp [h0]

theorem chunkLoop_first_end (oracle : PromptData → Option String) (codec : Codec)
    (tokens : List ℕ) (max_chunk_size overlap_tokens : ℕ) (metadata_block : String)
    (o : String)
    (hlen : 0 < tokens.length)
    (hcall : oracle (reqAt codec tokens max_chunk_size overlap_tokens
        metadata_block 0 "" 0) = some o)
    (hne2 : (pyStrip (pyStrip o) == "") = false)
    (hend : strContains (pyStrip o) "END" = true) :
    chunkLoop oracle codec tokens max_chunk_size overlap_tokens metadata_block
      = ([pyStrip o], 1) := by
  rw [chunkLoop, chunkLoopAux, if_pos hlen]
  simp only [convert_chunk_to_markdown, reqAt] at hcall ⊢
  rw [hcall, hne2, hend]
  simp

/-! ### Claims C1, C2, C5: single-window path, configuration checks,
sentinel purity -/

/-- Claim C1 (code bug): for a document under the token limit the claim
says `process_html_in_chunks` returns the pair whose text is the
single-call conversion with header included; the code instead raises
`TypeError`, because line 210 calls `convert_chunk_to_markdown` with the
keyword argument `with_metadata`, which its signature does not declare
(and the callee returns one string, not the expected pair).  Evaluated
here on a small non-empty document whose total token count is 1. -/
theorem claim_C1_single_window_raises :
    process_html_in_chunks oracleSentinel smallCodec plainDoc 1000 100 true
      = .error .typeError := by
  rfl

/-- Claim C2 (code bug): with `overlap_tokens = max_chunk_size = 100` —
a configuration the spec requires to be rejected before any external
call — the code performs an external conversion call (`process_calls`
counts 1 Bedrock invocation) and returns normally instead of failing
fast. -/
theorem claim_C2_config_not_rejected :
    process_html_in_chunks oracleFail bigCodec plainDoc 100 100 true = .ok ("", [])
    ∧ process_calls oracleFail bigCodec plainDoc 100 100 true = 1 := by
  constructor
  · rw [process_chunking _ _ _ _ _ _ (by rfl) (by rw [bigCodec_len]; decide)]
    rw [chunkLoop_first_none _ _ _ _ _ _ (by rw [bigCodec_len]; decide) (by rfl)]
    rfl
  · rw [process_calls_chunking _ _ _ _ _ _ (by rfl) (by rw [bigCodec_len]; decide)]
    rw [chunkLoop_first_none _ _ _ _ _ _ (by rw [bigCodec_len]; decide) (by rfl)]

/-- Claim C5 (code bug): the final aggregated text can contain the
sentinel.  With the model replying `"ENENDD"` for the one converted
window, the single `replace("END", "")` pass deletes the occurrence at
offset 2 and thereby concatenates `"EN"` with `"D"`, so the pipeline
returns exactly `"END"` — which contains the sentinel — contradicting the
claim that the final text never does. -/
theorem claim_C5_sentinel_leaks :
    process_html_in_chunks oracleSentinel bigCodec plainDoc 1000 100 true
      = .ok ("END", [])
    ∧ strContains "END" "END" = true := by
  constructor
  · rw [process_chunking _ _ _ _ _ _ (by rfl) (by rw [bigCodec_len]; decide)]
    rw [chunkLoop_first_end _ _ _ _ _ _ "ENENDD" (by rw [bigCodec_len]; decide) (by rfl)
      (by decide) (by decide)]
    rfl
  · decide

/-! ### Claims C8, C10: empty-body and missing-body short circuits -/

/-- Claim C8: a document whose body element is present but has no
extractable text (empty or whitespace-only body) yields `("", {})` with
no exception and no external call. -/
theorem claim_C8_empty_body (oracle : PromptData → Option String)
    (codec : Codec) (d : HtmlDoc) (max_chunk_size overlap_tokens : ℕ)
    (with_metadata : Bool) (b : BodyElem)
    (hb : d.body = some b) (ht : b.textStripped = "") :
    process_html_in_chunks oracle codec d max_chunk_size overlap_tokens with_metadata
      = .ok ("", [])
    ∧ process_calls oracle codec d max_chunk_size overlap_tokens with_metadata = 0 := by
  have hnc : noContent d = true := by
    simp [noContent, hb, ht]
  constructor
  · rw [process_html_in_chunks, hnc]
    rfl
  · rw [process_calls, hnc]
    rfl

/-- Witness for C8 at a concrete whitespace-only-body document. -/
theorem claim_C8_empty_body_witness :
    wsDoc.body = some ⟨"", "<body> \n </body>"⟩
    ∧ (process_html_in_chunks oracleSentinel smallCodec wsDoc 1000 100 true
        = .ok ("", [])
      ∧ process_calls oracleSentinel smallCodec wsDoc 1000 100 true = 0) :=
  ⟨rfl, claim_C8_empty_body oracleSentinel smallCodec wsDoc 1000 100 true
    ⟨"", "<body> \n </body>"⟩ rfl rfl⟩

/-- Claim C10: an input with no `<body>` element at all — however much
extractable text it has — takes the same early return `("", {})` with no
conversion call, because line 144 tests for the parsed body element. -/
theorem claim_C10_no_body_element (oracle : PromptData → Option String)
    (codec : Codec) (d : HtmlDoc) (max_chunk_size overlap_tokens : ℕ)
    (with_metadata : Bool)
    (hb : d.body = none) :
    process_html_in_chunks oracle codec d max_chunk_size overlap_tokens with_metadata
      = .ok ("", [])
    ∧ process_calls oracle codec d max_chunk_size overlap_tokens with_metadata = 0 := by
  have hnc : noContent d = true := by
    simp [noContent, hb]
  constructor
  · rw [process_html_in_chunks, hnc]
    rfl
  · rw [process_calls, hnc]
    rfl

/-- Witness for C10 at a concrete non-empty plain-text document (no body
element parsed, yet plenty of text). -/
theorem claim_C10_no_body_element_witness :
    fragmentDoc.body = none
    ∧ (process_html_in_chunks oracleSentinel smallCodec fragmentDoc 1000 100 true
        = .ok ("", [])
      ∧ process_calls oracleSentinel smallCodec fragmentDoc 1000 100 true = 0) :=
  ⟨rfl, claim_C10_no_body_element oracleSentinel smallCodec fragmentDoc 1000 100 true rfl⟩

/-! ### Claim C6: header singularity -/

theorem strStarts_dashes (x : String) : strStarts ("---\n" ++ x) "---" = true := by
  have h1 : "---".data = ['-', '-', '-'] := rfl
  have h2 : "---\n".data = ['-', '-', '-', '\n'] := rfl
  simp [strStarts, String.data_append, h1, h2, List.isPrefixOf]

theorem strStarts_append_left (s t p : String) (h : strStarts s p = true) :
    strStarts (s ++ t) p = true := by
  simp only [strStarts, String.data_append] at h ⊢
  rw [List.isPrefixOf_iff_prefix] at h ⊢
  exact h.trans (List.prefix_append _ _)

/-- Counterexample to claim C6: a successful run with non-empty metadata
whose final text contains a second `'---'` delimiter pair.  The model's
reply carries its own `'---'`-delimited block; the code only checks
whether the aggregate starts with `'---'` (it does not), prepends the
header, and never removes the pair inside the body, so the final text
holds four `'---'` occurrences — two delimiter pairs — where the claim
allows only the one at offset zero. -/
theorem claim_C6_counterexample :
    process_html_in_chunks oracleYamlBody bigCodec titledDoc 1000 100 true
      = .ok ("---\ntitle: \"T\"\n---\n\nbody\n---\na: b\n---", [("title", "T")])
    ∧ strCount "---\ntitle: \"T\"\n---\n\nbody\n---\na: b\n---" "---" = 4 := by
  constructor
  · rw [process_chunking _ _ _ _ _ _ (by rfl) (by rw [bigCodec_len]; decide)]
    rw [chunkLoop_first_end _ _ _ _ _ _ "body\n---\na: b\n---END"
      (by rw [bigCodec_len]; decide) (by rfl) (by decide) (by decide)]
    rfl
  · decide

/-- Claim C6 as amended: on every chunking-path run with metadata
requested and non-empty extracted metadata, the final text starts with the
header delimiter `'---'` at offset zero (already present, or prepended);
the code does not prevent further delimiter pairs inside the body. -/
theorem claim_C6_amended (oracle : PromptData → Option String) (codec : Codec)
    (d : HtmlDoc) (max_chunk_size overlap_tokens : ℕ)
    (hne : noContent d = false)
    (hbig : MAX_TOKEN_LIMIT < (codec.encode d.raw).length)
    (hmeta : (extract_metadata d).isEmpty = false) :
    ∃ s, process_html_in_chunks oracle codec d max_chunk_size overlap_tokens true
        = .ok (s, extract_metadata d)
      ∧ strStarts s "---" = true := by
  rw [process_chunking _ _ _ _ _ _ hne hbig]
  refine ⟨_, rfl, ?_⟩
  rw [ensure_front_matter]
  cases hs : strStarts
      (aggregate_markdown
        (chunkLoop oracle codec (codec.encode (strip_head d)) max_chunk_size
          overlap_tokens (metadata_block_of d true)).1) "---" with
  | false =>
    rw [hmeta, if_pos (by decide)]
    rw [metadata_block_of, hmeta]
    rw [if_pos (by decide)]
    rw [metaBlockOf]
    exact strStarts_append_left _ _ _
      (strStarts_append_left _ _ _ (strStarts_dashes _))
  | true =>
    simp only [Bool.not_true, Bool.and_false]
    rw [if_neg (by simp)]
    exact hs

/-- Witness for the amended C6 at a concrete run. -/
theorem claim_C6_amended_witness :
    (noContent titledDoc = false
      ∧ MAX_TOKEN_LIMIT < (bigCodec.encode titledDoc.raw).length
      ∧ (extract_metadata titledDoc).isEmpty = false)
    ∧ ∃ s, process_html_in_chunks oracleYamlBody bigCodec titledDoc 1000 100 true
          = .ok (s, extract_metadata titledDoc)
        ∧ strStarts s "---" = true :=
  ⟨⟨rfl, by rw [bigCodec_len]; decide, rfl⟩,
   claim_C6_amended oracleYamlBody bigCodec titledDoc 1000 100 rfl
     (by rw [bigCodec_len]; decide) rfl⟩

/-! ### Claim C9: metadata extraction (counterexample part) -/

/-- Counterexample to claim C9 as stated: the claim maps exactly those
annotations that have BOTH a `name` and a `content` attribute, so on
`nameOnlyDoc` (one `meta` with `name="author"` and no `content`) the
claimed map is empty; the code (`meta.get("content", "")`) maps
`"author"` to the empty string. -/
theorem claim_C9_counterexample :
    extract_metadata nameOnlyDoc = [("author", "")]
    ∧ extractMetadataClaim nameOnlyDoc = []
    ∧ extract_metadata nameOnlyDoc ≠ extractMetadataClaim nameOnlyDoc :=
  ⟨rfl, rfl, by decide⟩

/-! ### Claim C3: window coverage -/

theorem planAux_stop (total max_chunk_size overlap_tokens fuel start : ℕ)
    (h : total ≤ start) :
    planAux total max_chunk_size overlap_tokens fuel start = [] := by
  cases fuel with
  | zero => rfl
  | succ fuel => rw [planAux, if_neg (by omega)]

theorem chainCover_planAux (total max_chunk_size overlap_tokens : ℕ)
    (hmax : 0 < max_chunk_size) :
    ∀ fuel start, start < total → total ≤ start + fuel * max_chunk_size →
      chainCover start total
        ((planAux total max_chunk_size overlap_tokens fuel start).map nonOverlapRange)
        = true := by
  intro fuel
  induction fuel with
  | zero =>
    intro start h1 h2
    omega
  | succ fuel ih =>
    intro start h1 h2
    rw [planAux, if_pos h1]
    simp only [List.map_cons, chainCover, mkWindow, nonOverlapRange]
    rcases le_or_lt total (start + max_chunk_size) with hend | hend
    · simp only [min_eq_right hend]
      rw [planAux_stop _ _ _ _ _ hend]
      simp [h1, chainCover]
    · simp only [min_eq_left (le_of_lt hend)]
      have hc := ih (start + max_chunk_size) hend (by
        have : start + (fuel + 1) * max_chunk_size
            = start + max_chunk_size + fuel * max_chunk_size := by ring
        omega)
      have hlt2 : start < start + max_chunk_size := by omega
      simp [hc, hlt2]

/-- Claim C3: for a body that the loop windows, the non-overlap portions
of the planned windows tile `[0, total)` exactly — consecutive, no gaps,
no double-counted token; and at 2350 body tokens with
`max_chunk_size = 1000`, `overlap_tokens = 100` the plan is exactly the
three windows with slices `[0,1000)`, `[900,2000)`, `[1900,2350)`. -/
theorem claim_C3_window_coverage :
    (∀ total max_chunk_size overlap_tokens : ℕ, 0 < max_chunk_size →
      chainCover 0 total
        ((planWindows total max_chunk_size overlap_tokens).map nonOverlapRange)
        = true)
    ∧ planWindows 2350 1000 100 =
        [⟨0, 0, 1000⟩, ⟨1000, 900, 2000⟩, ⟨2000, 1900, 2350⟩] := by
  constructor
  · intro total max_chunk_size overlap_tokens hmax
    rw [planWindows]
    rcases Nat.eq_zero_or_pos total with h0 | h0
    · subst h0
      rw [planAux_stop _ _ _ _ _ (by omega)]
      rfl
    · exact chainCover_planAux total max_chunk_size overlap_tokens hmax _ 0 h0 (by
        have : total + 1 ≤ (total + 1) * max_chunk_size :=
          Nat.le_mul_of_pos_right _ hmax
        omega)
  · decide

/-- Witness for C3 at the spec's concrete example. -/
theorem claim_C3_window_coverage_witness :
    0 < 1000
    ∧ chainCover 0 2350 ((planWindows 2350 1000 100).map nonOverlapRange) = true :=
  ⟨by decide, claim_C3_window_coverage.1 2350 1000 100 (by decide)⟩

/-! ### Claim C4: overlap correctness -/

theorem planAux_chain (total max_chunk_size overlap_tokens : ℕ) :
    ∀ fuel start, (start = 0 ∨ max_chunk_size ≤ start) →
      List.Chain' (WinAdj total max_chunk_size overlap_tokens)
        (planAux total max_chunk_size overlap_tokens fuel start) := by
  intro fuel
  induction fuel with
  | zero => intro start _; exact List.chain'_nil
  | succ fuel ih =>
    intro start hstart
    rw [planAux]
    by_cases h1 : start < total
    · rw [if_pos h1]
      rw [List.chain'_cons']
      refine ⟨?_, ih (start + max_chunk_size) (Or.inr (by omega))⟩
      intro y hy
      cases fuel with
      | zero => simp [planAux] at hy
      | succ fuel =>
        rw [planAux] at hy
        by_cases h2 : start + max_chunk_size < total
        · rw [if_pos h2] at hy
          simp only [List.head?_cons, Option.mem_def, Option.some.injEq] at hy
          exact ⟨start, hstart, h2, rfl, hy.symm⟩
        · rw [if_neg h2] at hy
          simp at hy
    · rw [if_neg h1]
      exact List.chain'_nil

theorem windowSlice_adjacent (tokens : List ℕ)
    (max_chunk_size overlap_tokens s : ℕ)
    (hmax : 0 < max_chunk_size) (hov : overlap_tokens ≤ max_chunk_size)
    (hs : s = 0 ∨ max_chunk_size ≤ s)
    (hlt : s + max_chunk_size < tokens.length) :
    (windowSlice tokens
        (mkWindow tokens.length max_chunk_size overlap_tokens
          (s + max_chunk_size))).take overlap_tokens
      = (windowSlice tokens
          (mkWindow tokens.length max_chunk_size overlap_tokens s)).drop
          ((windowSlice tokens
            (mkWindow tokens.length max_chunk_size overlap_tokens s)).length
            - overlap_tokens) := by
  have hcast : ((s + max_chunk_size : ℕ) : ℤ) - (overlap_tokens : ℤ)
      = ((s + max_chunk_size - overlap_tokens : ℕ) : ℤ) := by omega
  have hlhs :
      windowSlice tokens
        (mkWindow tokens.length max_chunk_size overlap_tokens (s + max_chunk_size))
      = (tokens.drop (s + max_chunk_size - overlap_tokens)).take
          (min (s + max_chunk_size + max_chunk_size) tokens.length
            - (s + max_chunk_size - overlap_tokens)) := by
    rw [windowSlice, mkWindow]
    rw [if_pos (by omega)]
    rw [hcast, pySlice_coe, List.drop_take]
  rcases hs with hs0 | hsge
  · subst hs0
    have hrhs :
        windowSlice tokens (mkWindow tokens.length max_chunk_size overlap_tokens 0)
        = tokens.take max_chunk_size := by
      rw [windowSlice, mkWindow]
      rw [if_neg (by omega)]
      rw [pySlice_coe tokens 0 (min (0 + max_chunk_size) tokens.length)]
      rw [List.drop_zero, min_eq_left (by omega), Nat.zero_add]
    rw [hlhs, hrhs]
    have hlen : (tokens.take max_chunk_size).length = max_chunk_size := by
      rw [List.length_take]; omega
    rw [hlen]
    rw [List.drop_take]
    rw [List.take_take]
    have h1 : min overlap_tokens
        (min (0 + max_chunk_size + max_chunk_size) tokens.length
          - (0 + max_chunk_size - overlap_tokens)) = overlap_tokens := by omega
    have h2 : max_chunk_size - (max_chunk_size - overlap_tokens)
        = overlap_tokens := by omega
    have h3 : (0 : ℕ) + max_chunk_size - overlap_tokens
        = max_chunk_size - overlap_tokens := by omega
    rw [h1, h2, h3]
  · have hcast2 : ((s : ℕ) : ℤ) - (overlap_tokens : ℤ)
        = ((s - overlap_tokens : ℕ) : ℤ) := by omega
    have hrhs :
        windowSlice tokens (mkWindow tokens.length max_chunk_size overlap_tokens s)
        = (tokens.drop (s - overlap_tokens)).take
            (s + max_chunk_size - (s - overlap_tokens)) := by
      rw [windowSlice, mkWindow]
      rw [if_pos (by omega)]
      rw [hcast2, pySlice_coe, List.drop_take, min_eq_left (by omega)]
    rw [hlhs, hrhs]
    rw [List.length_take, List.length_drop]
    have hmin : min (s + max_chunk_size - (s - overlap_tokens))
        (tokens.length - (s - overlap_tokens))
        = s + max_chunk_size - (s - overlap_tokens) := by omega
    rw [hmin]
    rw [List.drop_take, List.drop_drop, List.take_take]
    have e1 : s + max_chunk_size - (s - overlap_tokens)
        - (s + max_chunk_size - (s - overlap_tokens) - overlap_tokens)
        = overlap_tokens := by omega
    have e2 : s - overlap_tokens
        + (s + max_chunk_size - (s - overlap_tokens) - overlap_tokens)
        = s + max_chunk_size - overlap_tokens := by omega
    rw [e1, e2]
    have e3 : min overlap_tokens
        (min (s + max_chunk_size + max_chunk_size) tokens.length
          - (s + max_chunk_size - overlap_tokens)) = overlap_tokens := by omega
    rw [e3]

/-- Claim C4: in any planned window sequence with a positive stride and
`overlap_tokens ≤ max_chunk_size`, the first `overlap_tokens` tokens of
window `i+1`'s slice equal the last `overlap_tokens` tokens of window
`i`'s slice, both drawn from the document's token sequence. -/
theorem claim_C4_overlap_correct (tokens : List ℕ)
    (max_chunk_size overlap_tokens : ℕ)
    (hmax : 0 < max_chunk_size) (hov : overlap_tokens ≤ max_chunk_size)
    (i : ℕ)
    (h : i + 1 < (planWindows tokens.length max_chunk_size overlap_tokens).length) :
    (windowSlice tokens
        ((planWindows tokens.length max_chunk_size overlap_tokens).get
          ⟨i + 1, h⟩)).take overlap_tokens
      = (windowSlice tokens
          ((planWindows tokens.length max_chunk_size overlap_tokens).get
            ⟨i, Nat.lt_of_succ_lt h⟩)).drop
          ((windowSlice tokens
            ((planWindows tokens.length max_chunk_size overlap_tokens).get
              ⟨i, Nat.lt_of_succ_lt h⟩)).length - overlap_tokens) := by
  have hchain : List.Chain' (WinAdj tokens.length max_chunk_size overlap_tokens)
      (planWindows tokens.length max_chunk_size overlap_tokens) :=
    planAux_chain tokens.length max_chunk_size overlap_tokens
      (tokens.length + 1) 0 (Or.inl rfl)
  rw [List.chain'_iff_get] at hchain
  have hadj := hchain i (by omega)
  obtain ⟨s, hs, hlt, hw, hw'⟩ := hadj
  rw [show (planWindows tokens.length max_chunk_size overlap_tokens).get ⟨i + 1, h⟩
      = mkWindow tokens.length max_chunk_size overlap_tokens (s + max_chunk_size)
    from hw']
  rw [show (planWindows tokens.length max_chunk_size overlap_tokens).get
        ⟨i, Nat.lt_of_succ_lt h⟩
      = mkWindow tokens.length max_chunk_size overlap_tokens s
    from hw]
  exact windowSlice_adjacent tokens max_chunk_size overlap_tokens s hmax hov hs hlt

/-- Witness for C4 on a concrete 25-token document with stride 10 and
overlap 3: windows `[0,10)`, `[7,20)`, `[17,25)`; the first 3 tokens of
window 1's slice equal the last 3 of window 0's. -/
theorem claim_C4_overlap_correct_witness :
    0 < 10 ∧ 3 ≤ 10 ∧ 0 + 1 < (planWindows (List.range 25).length 10 3).length
    ∧ (windowSlice (List.range 25)
        ((planWindows (List.range 25).length 10 3).get
          ⟨1, by decide⟩)).take 3
      = (windowSlice (List.range 25)
          ((planWindows (List.range 25).length 10 3).get
            ⟨0, by decide⟩)).drop
          ((windowSlice (List.range 25)
            ((planWindows (List.range 25).length 10 3).get
              ⟨0, by decide⟩)).length - 3) :=
  ⟨by decide, by decide, by decide,
   claim_C4_overlap_correct (List.range 25) 10 3 (by decide) (by decide) 0 (by decide)⟩

/-! ### Claim C7: terminal failure handling -/

theorem chunkLoopAux_runs (oracle : PromptData → Option String) (codec : Codec)
    (tokens : List ℕ) (max_chunk_size overlap_tokens : ℕ) (metadata_block : String) :
    ∀ (outs : List String) (fuel start : ℕ) (prev : String) (idx : ℕ),
      outs.length < fuel →
      runsThen oracle codec tokens max_chunk_size overlap_tokens metadata_block
        start prev idx outs = true →
      chunkLoopAux oracle codec tokens max_chunk_size overlap_tokens metadata_block
        fuel start prev idx = (outs.map pyStrip, outs.length + 1) := by
  intro outs
  induction outs with
  | nil =>
    intro fuel start prev idx hfuel hrun
    match fuel, hfuel with
    | fuel + 1, _ =>
      rw [runsThen] at hrun
      simp only [Bool.and_eq_true, decide_eq_true_eq, beq_iff_eq] at hrun
      obtain ⟨h1, h2⟩ := hrun
      rw [chunkLoopAux, if_pos h1]
      simp only [convert_chunk_to_markdown, reqAt] at h2 ⊢
      rw [h2]
      have h0 : (pyStrip "" == "") = true := by decide
      simp [h0]
  | cons o rest ih =>
    intro fuel start prev idx hfuel hrun
    match fuel, hfuel with
    | fuel + 1, hfuel =>
      rw [runsThen] at hrun
      simp only [Bool.and_eq_true, decide_eq_true_eq, beq_iff_eq,
        Bool.not_eq_true'] at hrun
      obtain ⟨⟨⟨⟨h1, h2⟩, h3⟩, h4⟩, h5⟩ := hrun
      rw [chunkLoopAux, if_pos h1]
      simp only [convert_chunk_to_markdown, reqAt] at h2 ⊢
      rw [h2]
      rw [if_neg (by rw [h3]; exact Bool.false_ne_true)]
      rw [if_neg (by rw [h4]; exact Bool.false_ne_true)]
      have hrec := ih fuel (start + max_chunk_size) (pyStrip o) (idx + 1)
        (by simpa using hfuel) h5
      rw [hrec]
      simp [Nat.add_comm]

theorem runsThen_bound (oracle : PromptData → Option String) (codec : Codec)
    (tokens : List ℕ) (max_chunk_size overlap_tokens : ℕ) (metadata_block : String) :
    ∀ (outs : List String) (start : ℕ) (prev : String) (idx : ℕ),
      runsThen oracle codec tokens max_chunk_size overlap_tokens metadata_block
        start prev idx outs = true →
      start + outs.length * max_chunk_size < tokens.length := by
  intro outs
  induction outs with
  | nil =>
    intro start prev idx hrun
    rw [runsThen] at hrun
    simp only [Bool.and_eq_true, decide_eq_true_eq] at hrun
    simpa using hrun.1
  | cons o rest ih =>
    intro start prev idx hrun
    rw [runsThen] at hrun
    simp only [Bool.and_eq_true, decide_eq_true_eq] at hrun
    have := ih (start + max_chunk_size) (pyStrip o) (idx + 1) hrun.2
    have hl : start + (o :: rest).length * max_chunk_size
        = start + max_chunk_size + rest.length * max_chunk_size := by
      simp [List.length_cons]
      ring
    omega

/-- Claim C7: whenever the run successfully converts some windows and the
external call then fails, the loop records nothing for the failed window,
makes no retry (exactly one call for it), consumes no further windows, and
the previously produced outputs are still aggregated and returned as a
normal (non-exceptional) result. -/
theorem claim_C7_failure_halts (oracle : PromptData → Option String)
    (codec : Codec) (d : HtmlDoc) (max_chunk_size overlap_tokens : ℕ)
    (with_metadata : Bool) (outs : List String)
    (hmax : 0 < max_chunk_size)
    (hne : noContent d = false)
    (hbig : MAX_TOKEN_LIMIT < (codec.encode d.raw).length)
    (hrun : runsThen oracle codec (codec.encode (strip_head d)) max_chunk_size
        overlap_tokens (metadata_block_of d with_metadata) 0 "" 0 outs = true) :
    process_html_in_chunks oracle codec d max_chunk_size overlap_tokens with_metadata
      = .ok (ensure_front_matter (aggregate_markdown (outs.map pyStrip))
              (metadata_block_of d with_metadata) with_metadata (extract_metadata d),
            extract_metadata d)
    ∧ process_calls oracle codec d max_chunk_size overlap_tokens with_metadata
        = outs.length + 1 := by
  have hb := runsThen_bound oracle codec (codec.encode (strip_head d))
    max_chunk_size overlap_tokens (metadata_block_of d with_metadata)
    outs 0 "" 0 hrun
  have hfuel : outs.length < (codec.encode (strip_head d)).length + 1 := by
    have := Nat.le_mul_of_pos_right outs.length hmax
    omega
  have hloop := chunkLoopAux_runs oracle codec (codec.encode (strip_head d))
    max_chunk_size overlap_tokens (metadata_block_of d with_metadata)
    outs ((codec.encode (strip_head d)).length + 1) 0 "" 0 hfuel hrun
  constructor
  · rw [process_chunking _ _ _ _ _ _ hne hbig, chunkLoop, hloop]
  · rw [process_calls_chunking _ _ _ _ _ _ hne hbig, chunkLoop, hloop]

/-- Witness for C7: a run that converts one window, then fails on the
second window's call, returning the first window's output with exactly two
external calls made. -/
theorem claim_C7_failure_halts_witness :
    (0 < 1000
      ∧ noContent plainDoc = false
      ∧ MAX_TOKEN_LIMIT < (bigCodec.encode plainDoc.raw).length
      ∧ runsThen oracleFirstOnly bigCodec (bigCodec.encode (strip_head plainDoc))
          1000 100 (metadata_block_of plainDoc true) 0 "" 0 ["first out"] = true)
    ∧ (process_html_in_chunks oracleFirstOnly bigCodec plainDoc 1000 100 true
        = .ok (ensure_front_matter (aggregate_markdown (["first out"].map pyStrip))
                (metadata_block_of plainDoc true) true (extract_metadata plainDoc),
              extract_metadata plainDoc)
      ∧ process_calls oracleFirstOnly bigCodec plainDoc 1000 100 true = 2) :=
  ⟨⟨by decide, rfl, by rw [bigCodec_len]; decide,
    by simp only [runsThen, bigCodec_len]; decide⟩,
   claim_C7_failure_halts oracleFirstOnly bigCodec plainDoc 1000 100 true
     ["first out"] (by decide) rfl (by rw [bigCodec_len]; decide)
     (by simp only [runsThen, bigCodec_len]; decide)⟩

/-! ### Claim C9, amended part: characterising `extract_metadata` as an
insertion-ordered dict over the candidate pairs -/

theorem foldl_metaStep (l : List MetaTag) :
    ∀ m, l.foldl metaStep m = insertAll m (l.filterMap metaPair) := by
  induction l with
  | nil => intro m; rfl
  | cons mt l ih =>
    intro m
    rw [List.foldl_cons, List.filterMap_cons]
    cases hname : mt.name with
    | none =>
      simp only [metaStep, metaPair, hname]
      exact ih m
    | some n =>
      by_cases hn : n != ""
      · simp only [metaStep, metaPair, hname, if_pos hn]
        rw [ih]
        rfl
      · simp only [metaStep, metaPair, hname, if_neg hn]
        exact ih m

theorem titleInit_eq (d : HtmlDoc) : titleInit d = insertAll [] (titlePairs d) := by
  cases htt : d.titleString with
  | none => simp only [titleInit, titlePairs, htt]; rfl
  | some t =>
    by_cases ht : t != ""
    · simp only [titleInit, titlePairs, htt, if_pos ht]
      rfl
    · simp only [titleInit, titlePairs, htt, if_neg ht]
      rfl

theorem insertAll_append (m : List (String × String))
    (a b : List (String × String)) :
    insertAll m (a ++ b) = insertAll (insertAll m a) b := by
  rw [insertAll, insertAll, insertAll, List.foldl_append]

theorem extract_eq_insertAll (d : HtmlDoc) :
    extract_metadata d = insertAll [] (metaPairs d) := by
  rw [extract_metadata, foldl_metaStep, metaPairs, insertAll_append, titleInit_eq]

theorem any_key_iff (m : List (String × String)) (k : String) :
    (m.any fun p => p.1 == k) = true ↔ k ∈ m.map Prod.fst := by
  rw [List.any_eq_true]
  constructor
  · rintro ⟨p, hp, hk⟩
    exact List.mem_map.mpr ⟨p, hp, beq_iff_eq.mp hk⟩
  · intro hk
    obtain ⟨p, hp, hk⟩ := List.mem_map.mp hk
    exact ⟨p, hp, beq_iff_eq.mpr hk⟩

theorem upd_key_id (k v : String) (p : String × String) :
    (if p.1 == k then (k, v) else p).1 = p.1 := by
  by_cases h : p.1 == k
  · rw [if_pos h]
    exact (beq_iff_eq.mp h).symm
  · rw [if_neg h]

theorem keys_dictInsert_mem (m : List (String × String)) (k v : String)
    (h : k ∈ m.map Prod.fst) :
    (dictInsert m k v).map Prod.fst = m.map Prod.fst := by
  rw [dictInsert, if_pos ((any_key_iff m k).mpr h)]
  rw [List.map_map]
  exact List.map_congr_left (fun p _ => upd_key_id k v p)

theorem dictInsert_not_mem (m : List (String × String)) (k v : String)
    (h : ¬ k ∈ m.map Prod.fst) :
    dictInsert m k v = m ++ [(k, v)] := by
  rw [dictInsert, if_neg (fun hc => h ((any_key_iff m k).mp hc))]

theorem filter_key_nil (m : List (String × String)) (k : String)
    (h : ¬ k ∈ m.map Prod.fst) :
    m.filter (fun p => p.1 == k) = [] := by
  rw [List.filter_eq_nil_iff]
  intro p hp hpk
  exact h (List.mem_map.mpr ⟨p, hp, beq_iff_eq.mp hpk⟩)

theorem filter_key_singleton (m : List (String × String)) (k : String)
    (hNK : (m.map Prod.fst).Nodup) (hmem : k ∈ m.map Prod.fst) :
    ∃ w, m.filter (fun p => p.1 == k) = [(k, w)] := by
  induction m with
  | nil => simp at hmem
  | cons a m ih =>
    rw [List.map_cons, List.nodup_cons] at hNK
    rw [List.map_cons, List.mem_cons] at hmem
    by_cases hak : a.1 = k
    · refine ⟨a.2, ?_⟩
      rw [List.filter_cons, if_pos (by simpa using beq_iff_eq.mpr hak)]
      rw [filter_key_nil m k (by rw [← hak]; exact hNK.1)]
      rw [← hak]
    · rcases hmem with hm | hm
      · exact absurd hm.symm hak
      · obtain ⟨w, hw⟩ := ih hNK.2 hm
        refine ⟨w, ?_⟩
        rw [List.filter_cons, if_neg (by simpa using hak), hw]

theorem filter_key_dictInsert_ne (m : List (String × String)) (k v x : String)
    (hx : x ≠ k) :
    (dictInsert m k v).filter (fun p => p.1 == x)
      = m.filter (fun p => p.1 == x) := by
  by_cases hmem : k ∈ m.map Prod.fst
  · rw [dictInsert, if_pos ((any_key_iff m k).mpr hmem)]
    rw [List.filter_map]
    have hpt : ∀ p : String × String,
        ((fun q : String × String => q.1 == x) ∘
          (fun p => if p.1 == k then (k, v) else p)) p
          = (fun q : String × String => q.1 == x) p := by
      intro p
      simp only [Function.comp_apply, upd_key_id]
    rw [List.filter_congr (fun p _ => hpt p)]
    have hid : List.map (fun p : String × String => if p.1 == k then (k, v) else p)
        (m.filter (fun q => q.1 == x))
        = List.map id (m.filter (fun q => q.1 == x)) := by
      apply List.map_congr_left
      intro p hp
      rw [List.mem_filter] at hp
      have hpk : p.1 ≠ k := by
        intro hc
        exact hx ((beq_iff_eq.mp hp.2).symm.trans hc)
      rw [if_neg (by simpa using hpk)]
      rfl
    rw [hid, List.map_id]
  · rw [dictInsert_not_mem m k v hmem, List.filter_append]
    have : List.filter (fun p => p.1 == x) [(k, v)] = [] := by
      rw [List.filter_cons, if_neg (by simpa using (Ne.symm hx))]
      rfl
    rw [this, List.append_nil]

theorem filter_key_dictInsert_self (m : List (String × String)) (k v : String)
    (hNK : (m.map Prod.fst).Nodup) :
    (dictInsert m k v).filter (fun p => p.1 == k) = [(k, v)] := by
  by_cases hmem : k ∈ m.map Prod.fst
  · obtain ⟨w, hw⟩ := filter_key_singleton m k hNK hmem
    rw [dictInsert, if_pos ((any_key_iff m k).mpr hmem)]
    rw [List.filter_map]
    have hpt : ∀ p : String × String,
        ((fun q : String × String => q.1 == k) ∘
          (fun p => if p.1 == k then (k, v) else p)) p
          = (fun q : String × String => q.1 == k) p := by
      intro p
      simp only [Function.comp_apply, upd_key_id]
    rw [List.filter_congr (fun p _ => hpt p), hw]
    rw [List.map_cons, List.map_nil]
    rw [if_pos (by simp)]
  · rw [dictInsert_not_mem m k v hmem, List.filter_append]
    rw [filter_key_nil m k hmem]
    rw [List.nil_append, List.filter_cons, if_pos (by simp)]
    rfl

theorem NK_dictInsert (m : List (String × String)) (k v : String)
    (hNK : (m.map Prod.fst).Nodup) :
    ((dictInsert m k v).map Prod.fst).Nodup := by
  by_cases hmem : k ∈ m.map Prod.fst
  · rw [keys_dictInsert_mem m k v hmem]
    exact hNK
  · rw [dictInsert_not_mem m k v hmem, List.map_append]
    simp only [List.map_cons, List.map_nil]
    rw [List.nodup_append]
    exact ⟨hNK, List.nodup_singleton k, by simpa using hmem⟩

theorem firstKeys_nil : firstKeys ([] : List String) = [] := by
  rw [firstKeys]

theorem firstKeys_cons (k : String) (rest : List String) :
    firstKeys (k :: rest) = k :: firstKeys (rest.filter (fun x => !(x == k))) := by
  rw [firstKeys]

theorem firstKeys_of_nodup (l : List String) (hnd : l.Nodup) :
    firstKeys l = l := by
  have main : ∀ (n : ℕ) (l : List String), l.length ≤ n → l.Nodup →
      firstKeys l = l := by
    intro n
    induction n with
    | zero =>
      intro l hl _
      rw [List.length_eq_zero.mp (Nat.le_zero.mp hl), firstKeys_nil]
    | succ n ih =>
      intro l hl hnd
      cases l with
      | nil => exact firstKeys_nil
      | cons k rest =>
        rw [firstKeys_cons]
        rw [List.nodup_cons] at hnd
        have hfilt : rest.filter (fun x => !(x == k)) = rest := by
          rw [List.filter_eq_self]
          intro x hx
          have : x ≠ k := fun hc => hnd.1 (hc ▸ hx)
          simpa using this
        rw [hfilt, ih rest (by simpa using Nat.succ_le_succ_iff.mp hl) hnd.2]
  exact main l.length l le_rfl hnd

theorem firstKeys_append_of_mem (l r : List String) (x : String) (hx : x ∈ l) :
    firstKeys (l ++ x :: r) = firstKeys (l ++ r) := by
  have main : ∀ (n : ℕ) (l r : List String) (x : String),
      (l ++ x :: r).length ≤ n → x ∈ l →
      firstKeys (l ++ x :: r) = firstKeys (l ++ r) := by
    intro n
    induction n with
    | zero =>
      intro l r x hl hx
      simp [List.length_append] at hl
    | succ n ih =>
      intro l r x hl hx
      match l, hx with
      | a :: l, hx =>
        rw [List.cons_append, List.cons_append, firstKeys_cons, firstKeys_cons]
        congr 1
        rw [List.filter_append, List.filter_append, List.filter_cons]
        by_cases hxa : x = a
        · rw [if_neg (by simp [hxa])]
        · rw [if_pos (by simpa using hxa)]
          have hxl : x ∈ l := by
            rcases List.mem_cons.mp hx with h | h
            · exact absurd h hxa
            · exact h
          apply ih
          · have h1 := List.length_filter_le (fun y => !(y == a)) l
            have h2 := List.length_filter_le (fun y => !(y == a)) r
            simp only [List.length_append, List.length_cons] at hl ⊢
            omega
          · exact List.mem_filter.mpr ⟨hxl, by simpa using hxa⟩
  exact main (l ++ x :: r).length l r x le_rfl hx

theorem lastVal_cons_ne (a : String × String) (m : List (String × String))
    (k : String) (hak : a.1 ≠ k) :
    lastVal (a :: m) k = lastVal m k := by
  rw [lastVal, lastVal, List.filter_cons, if_neg (by simpa using hak)]

theorem keysMap_lastVal (m : List (String × String))
    (hNK : (m.map Prod.fst).Nodup) :
    (m.map Prod.fst).map (fun k => (k, lastVal m k)) = m := by
  induction m with
  | nil => rfl
  | cons a m ih =>
    rw [List.map_cons, List.nodup_cons] at hNK
    rw [List.map_cons, List.map_cons]
    have hhead : lastVal (a :: m) a.1 = a.2 := by
      rw [lastVal, List.filter_cons, if_pos (by simp)]
      rw [filter_key_nil m a.1 hNK.1]
      rfl
    rw [hhead]
    have htail : (m.map Prod.fst).map (fun k => (k, lastVal (a :: m) k))
        = (m.map Prod.fst).map (fun k => (k, lastVal m k)) := by
      apply List.map_congr_left
      intro k hk
      have hak : a.1 ≠ k := fun hc => hNK.1 (hc ▸ hk)
      rw [lastVal_cons_ne a m k hak]
    rw [htail, ih hNK.2]

theorem canonDict_self (m : List (String × String))
    (hNK : (m.map Prod.fst).Nodup) :
    canonDict m = m := by
  rw [canonDict, firstKeys_of_nodup _ hNK]
  exact keysMap_lastVal m hNK

theorem canonDict_insert (m tail : List (String × String)) (k v : String)
    (hNK : (m.map Prod.fst).Nodup) :
    canonDict (dictInsert m k v ++ tail) = canonDict (m ++ (k, v) :: tail) := by
  have hkeys : firstKeys ((dictInsert m k v ++ tail).map Prod.fst)
      = firstKeys ((m ++ (k, v) :: tail).map Prod.fst) := by
    rw [List.map_append, List.map_append, List.map_cons]
    by_cases hmem : k ∈ m.map Prod.fst
    · rw [keys_dictInsert_mem m k v hmem]
      exact (firstKeys_append_of_mem _ _ _ hmem).symm
    · rw [dictInsert_not_mem m k v hmem, List.map_append]
      simp only [List.map_cons, List.map_nil]
      rw [List.append_assoc, List.singleton_append]
  have hlast : ∀ x, lastVal (dictInsert m k v ++ tail) x
      = lastVal (m ++ (k, v) :: tail) x := by
    intro x
    have hgl : ((dictInsert m k v ++ tail).filter (fun p => p.1 == x)).getLast?
        = ((m ++ (k, v) :: tail).filter (fun p => p.1 == x)).getLast? := by
      rw [List.filter_append, List.filter_append, List.filter_cons]
      by_cases hxk : x = k
      · subst hxk
        rw [if_pos (by simp)]
        rw [filter_key_dictInsert_self m x v hNK]
        by_cases hmem : x ∈ m.map Prod.fst
        · obtain ⟨w, hw⟩ := filter_key_singleton m x hNK hmem
          rw [hw, List.singleton_append, List.singleton_append,
            List.getLast?_cons_cons]
        · rw [filter_key_nil m x hmem]
          rfl
      · rw [if_neg (by simpa using fun hc : k = x => hxk hc.symm)]
        rw [filter_key_dictInsert_ne m k v x hxk]
    rw [lastVal, lastVal, hgl]
  rw [canonDict, canonDict, hkeys]
  exact List.map_congr_left (fun x _ => by rw [hlast x])

theorem insertAll_canonDict (ps : List (String × String)) :
    ∀ m, (m.map Prod.fst).Nodup → insertAll m ps = canonDict (m ++ ps) := by
  induction ps with
  | nil =>
    intro m h
    rw [List.append_nil, insertAll, List.foldl_nil]
    exact (canonDict_self m h).symm
  | cons kv ps ih =>
    intro m h
    rw [insertAll, List.foldl_cons]
    have hstep : List.foldl (fun acc kv => dictInsert acc kv.1 kv.2)
        (dictInsert m kv.1 kv.2) ps = insertAll (dictInsert m kv.1 kv.2) ps := rfl
    rw [hstep, ih _ (NK_dictInsert m kv.1 kv.2 h)]
    rw [canonDict_insert m ps kv.1 kv.2 h]

/-- Claim C9 as amended: `extract_metadata` maps the (truthy, stripped)
title to `"title"` and every annotation with a truthy `name` attribute to
`map[name.strip()] = content.strip()` with a missing `content` defaulting
to the empty string; a later occurrence of a name overwrites the earlier
value while preserving insertion order (keys appear in first-occurrence
order, each bound to its last written value); no candidates yields the
empty map.  Stated as: the extractor equals the insertion-ordered-dict
semantics `canonicalMeta` over the candidate pairs. -/
theorem claim_C9_amended (d : HtmlDoc) :
    extract_metadata d = canonicalMeta d := by
  rw [extract_eq_insertAll, canonicalMeta]
  have h := insertAll_canonDict (metaPairs d) [] (by simp)
  rw [h, List.nil_append]

end HtmlToMd
